import Mathlib

/-!
Verification of the `thumper` sync engine against its specification.

The Rust sources are shallowly embedded:
* `src/sync/plan.rs`   → `mustRemove`, `planJobs`, `planSync`
* `src/sync/task.rs`   → `Task`, `Action`, `Execution`, `Task.plan`, `Task.execute`
* `src/lock.rs`        → `Lock.new`
* `src/sync/mod.rs`    → `SyncJob.execute` (sequentialized worker pool)
* `src/sync/local_path.rs` → `discover_files`, `files_by_remote_name`
* `src/api.rs`         → `ls_dir`, `read_file`, `put_file`, `delete_file`,
                         `concurrent_discover_files`, `list_files`

Machine bytes (`u8`, `[u8; 32]`) are modelled as `List Nat`; only equality of
digests matters to the program, so no arithmetic overflow is involved.
External library functions (SHA-256 from the `sha2` crate, MIME sniffing from
the `infer` crate, UTF-8 decoding of OS strings, the HTTP stack, the system
clock) are modelled as explicit function parameters: the program only ever
compares their outputs for equality or propagates them.
-/

namespace Thumper

/-- Byte strings (`Vec<u8>` in the source). -/
abbrev Bytes := List Nat

/-- Content digests (`[u8; 32]` in the source). -/
abbrev Checksum := List Nat

/-! ### String order used by the planner

Rust sorts `&str` bytewise over UTF-8; bytewise UTF-8 order coincides with
codepoint-lexicographic order, which is what `lexLeChars` computes. -/

/-- Non-strict lexicographic order on character lists, by codepoint. -/
def lexLeChars : List Char → List Char → Bool
  | [], _ => true
  | _ :: _, [] => false
  | a :: as, b :: bs =>
    if a.toNat < b.toNat then true
    else if b.toNat < a.toNat then false
    else lexLeChars as bs

/-- Embeds `path.ends_with(".html") || path.ends_with(".htm")` from
`plan_sync` in `src/sync/plan.rs`. -/
def isHtmlName (s : String) : Bool :=
  ".html".data.isSuffixOf s.data || ".htm".data.isSuffixOf s.data

/-- The composite sort key of `plan_sync`: Rust sorts local keys by the tuple
`(ends_with_html, path)`, so HTML-like names come last, then byte order. -/
def pathOrdLe (a b : String) : Bool :=
  if isHtmlName a == isHtmlName b then lexLeChars a.data b.data
  else isHtmlName b

/-- Propositional form of `pathOrdLe`, used with `List.insertionSort`. -/
abbrev PathLe (a b : String) : Prop := pathOrdLe a b = true

theorem lexLeChars_total (a b : List Char) :
    lexLeChars a b = true ∨ lexLeChars b a = true := by
  induction a generalizing b with
  | nil => left; simp [lexLeChars]
  | cons x xs ih =>
    cases b with
    | nil => right; simp [lexLeChars]
    | cons y ys =>
      rcases Nat.lt_trichotomy x.toNat y.toNat with h | h | h
      · left; simp [lexLeChars, h]
      · have h1 : ¬ x.toNat < y.toNat := by omega
        have h2 : ¬ y.toNat < x.toNat := by omega
        rcases ih ys with hx | hx
        · left; simp [lexLeChars, h1, h2, hx]
        · right; simp [lexLeChars, h1, h2, hx]
      · right; simp [lexLeChars, h]

theorem lexLeChars_trans {a b c : List Char} (h1 : lexLeChars a b = true)
    (h2 : lexLeChars b c = true) : lexLeChars a c = true := by
  induction a generalizing b c with
  | nil => simp [lexLeChars]
  | cons x xs ih =>
    cases b with
    | nil => simp [lexLeChars] at h1
    | cons y ys =>
      cases c with
      | nil => simp [lexLeChars] at h2
      | cons z zs =>
        simp only [lexLeChars] at h1 h2 ⊢
        rcases Nat.lt_trichotomy x.toNat y.toNat with hxy | hxy | hxy
        · rcases Nat.lt_trichotomy y.toNat z.toNat with hyz | hyz | hyz
          · rw [if_pos (by omega)]
          · rw [if_pos (by omega)]
          · rw [if_neg (by omega), if_pos hyz] at h2
            exact absurd h2 (by simp)
        · rw [if_neg (by omega), if_neg (by omega)] at h1
          rcases Nat.lt_trichotomy y.toNat z.toNat with hyz | hyz | hyz
          · rw [if_pos (by omega)]
          · rw [if_neg (by omega), if_neg (by omega)] at h2
            rw [if_neg (by omega), if_neg (by omega)]
            exact ih h1 h2
          · rw [if_neg (by omega), if_pos hyz] at h2
            exact absurd h2 (by simp)
        · rw [if_neg (by omega), if_pos hxy] at h1
          exact absurd h1 (by simp)

theorem pathOrdLe_trans {a b c : String} (h1 : pathOrdLe a b = true)
    (h2 : pathOrdLe b c = true) : pathOrdLe a c = true := by
  unfold pathOrdLe at h1 h2 ⊢
  cases ha : isHtmlName a <;> cases hb : isHtmlName b <;> cases hc : isHtmlName c <;>
    simp [ha, hb, hc] at h1 h2 ⊢ <;>
      exact lexLeChars_trans h1 h2

theorem pathOrdLe_total (a b : String) :
    pathOrdLe a b = true ∨ pathOrdLe b a = true := by
  unfold pathOrdLe
  cases ha : isHtmlName a <;> cases hb : isHtmlName b <;> simp [ha, hb] <;>
    exact lexLeChars_total a.data b.data

instance : IsTrans String PathLe := ⟨fun _ _ _ => pathOrdLe_trans⟩

instance : IsTotal String PathLe := ⟨fun a b => pathOrdLe_total a b⟩

/-! ### Planned tasks (`src/sync/task.rs`) -/

/-- The `Task` enum of `src/sync/task.rs`. `π` stands for `PathBuf`; the
program treats local paths as opaque values handed to the byte reader, so the
embedding is polymorphic in them. The Rust field `local` is called
`localPath` (`local` is a Lean keyword). -/
inductive Task (π : Type) where
  | Put (localPath : π) (remote : String)
  | Replace (localPath : π) (remote : String) (remoteChecksum : Option Checksum)
  | Delete (remote : String)
deriving DecidableEq

/-- The remote key a task addresses (the `Task::remote` accessor). -/
def Task.remoteName {π : Type} : Task π → String
  | .Put _ r => r
  | .Replace _ r _ => r
  | .Delete r => r

/-- The `Action` enum of `src/sync/plan.rs`; the spec calls `Put` `Upload`,
`Ignore` `Skip` and `Delete` `Remove`. -/
inductive Action where
  | Put (content : Bytes) (mimeType : Option String)
  | Ignore
  | Delete
deriving DecidableEq

/-- The `Execution` struct of `src/sync/plan.rs`. -/
structure Execution where
  remote : String
  action : Action
deriving DecidableEq

/-- Embeds `Task::plan` from `src/sync/task.rs`. `fsRead` stands for
`std::fs::read`, `rd` for the injected reader argument `read`, `inferMime`
for `infer::get_from_path` (which itself reads from the filesystem) and
`digest` for `Sha256::digest`. Note the source reads `Put` content with
`fs::read` but `Replace` content with the injected `read`. -/
def Task.plan {π : Type} (fsRead rd : π → Except String Bytes)
    (inferMime : π → Except String (Option String)) (digest : Bytes → Checksum) :
    Task π → Except String Execution
  | .Put lp remote =>
    match fsRead lp with
    | .error e => .error e
    | .ok content =>
      match inferMime lp with
      | .error e => .error e
      | .ok mimeType => .ok ⟨remote, .Put content mimeType⟩
  | .Replace lp remote rc =>
    match rd lp with
    | .error e => .error e
    | .ok content =>
      match inferMime lp with
      | .error e => .error e
      | .ok mimeType =>
        if some (digest content) ≠ rc then .ok ⟨remote, .Put content mimeType⟩
        else .ok ⟨remote, .Ignore⟩
  | .Delete remote => .ok ⟨remote, .Delete⟩

/-! ### The diff planner (`src/sync/plan.rs`)

`FxHashMap`s are embedded as association lists; a map corresponds to a list
whose keys are `Nodup`. Rust's `sort_by_key` is a stable sort; for a total
preorder a stable sort's output is unique, so `List.insertionSort` computes
exactly the list Rust computes. The iteration order of the `FxHashSet` of
removals is unspecified in Rust; the embedding fixes remote insertion order,
one allowed order. -/

/-- Embeds `must_remove`: remote keys absent locally whose name starts with
no ignored prefix (`p.starts_with(prefix)` is a plain string-prefix test). -/
def mustRemove {π : Type} (localM : List (String × π))
    (remoteM : List (String × Option Checksum)) (ignore : List String) :
    List String :=
  (remoteM.map Prod.fst).filter fun p =>
    !((localM.map Prod.fst).contains p) &&
      !(ignore.any fun pre => pre.data.isPrefixOf p.data)

/-- Loop body of `plan_sync`'s Put/Replace pass: look up the local path of a
key (always succeeds when `k` is a key of `localM`, mirroring the source's
`unwrap`) and emit `Replace` carrying the remote checksum when the key is
known remotely, `Put` otherwise. -/
def planJobsFun {π : Type} (localM : List (String × π))
    (remoteM : List (String × Option Checksum)) (k : String) :
    Option (Task π) :=
  (localM.lookup k).map fun p =>
    match remoteM.lookup k with
    | some c => Task.Replace p k c
    | none => Task.Put p k

/-- The Put/Replace segment of `plan_sync`: local keys sorted by
`(is_html, path)`, each mapped through `planJobsFun`. -/
def planJobs {π : Type} (localM : List (String × π))
    (remoteM : List (String × Option Checksum)) : List (Task π) :=
  (List.insertionSort PathLe (localM.map Prod.fst)).filterMap
    (planJobsFun localM remoteM)

/-- Embeds `plan_sync` from `src/sync/plan.rs`: the ordered Put/Replace
segment followed by one `Delete` per member of the removal set. -/
def planSync {π : Type} (localM : List (String × π))
    (remoteM : List (String × Option Checksum)) (ignore : List String) :
    List (Task π) :=
  planJobs localM remoteM ++ (mustRemove localM remoteM ignore).map Task.Delete

example :
    planSync [("a.txt", "p1"), ("index.html", "p2")]
      [("old.txt", some [1])] ([] : List String) =
      [Task.Put "p1" "a.txt", Task.Put "p2" "index.html",
       Task.Delete "old.txt"] := by decide

example :
    planSync [("z.txt", "p"), ("a.html", "p"), ("b.htm", "p"), ("c.jpg", "p")]
      ([] : List (String × Option Checksum)) ([] : List String) =
      [Task.Put "p" "c.jpg", Task.Put "p" "z.txt",
       Task.Put "p" "a.html", Task.Put "p" "b.htm"] := by decide

/-! ### C2 — the checksum gate of `Task::plan` -/

/-- C2. Resolving a `Replace` task with a content reader yields `Upload`
(`Action.Put`) whenever `remoteChecksum` is `none`; when it is `some d` it
yields `Skip` (`Action.Ignore`) exactly when the digest of the bytes the
reader returns equals `d`, and `Upload` otherwise. -/
theorem replace_checksum_gate {π : Type} (fsRead rd : π → Except String Bytes)
    (inferMime : π → Except String (Option String)) (digest : Bytes → Checksum)
    (lp : π) (r : String) (bytes : Bytes) (mt : Option String)
    (hrd : rd lp = .ok bytes) (hmt : inferMime lp = .ok mt) :
    (Task.Replace lp r none).plan fsRead rd inferMime digest =
      .ok ⟨r, .Put bytes mt⟩ ∧
    ∀ d : Checksum,
      (Task.Replace lp r (some d)).plan fsRead rd inferMime digest =
        .ok ⟨r, if digest bytes = d then .Ignore else .Put bytes mt⟩ := by
  constructor
  · simp [Task.plan, hrd, hmt]
  · intro d
    by_cases h : digest bytes = d <;> simp [Task.plan, hrd, hmt, h]

/-- C2 witness at a concrete task: a matching digest is skipped, a mismatch
and a missing remote checksum are uploaded. -/
theorem replace_checksum_gate_witness :
    (Task.Replace "p" "r" none).plan (fun _ => .ok [9]) (fun _ => .ok [1, 2])
        (fun _ => .ok none) (fun bs => bs) = .ok ⟨"r", .Put [1, 2] none⟩ ∧
    (Task.Replace "p" "r" (some [1, 2])).plan (fun _ => .ok [9])
        (fun _ => .ok [1, 2]) (fun _ => .ok none) (fun bs => bs) =
      .ok ⟨"r", .Ignore⟩ ∧
    (Task.Replace "p" "r" (some [3])).plan (fun _ => .ok [9])
        (fun _ => .ok [1, 2]) (fun _ => .ok none) (fun bs => bs) =
      .ok ⟨"r", .Put [1, 2] none⟩ := by
  have h := replace_checksum_gate (π := String) (fun _ => .ok [9])
    (fun _ => .ok [1, 2]) (fun _ => .ok none) (fun bs => bs) "p" "r" [1, 2] none
    rfl rfl
  refine ⟨h.1, ?_, ?_⟩
  · have h2 := h.2 [1, 2]
    simpa using h2
  · have h3 := h.2 [3]
    simpa using h3

/-! ### C9 — `Put` reads the filesystem, `Replace` reads the injected reader -/

/-- C9. Resolving a `Put` task reads bytes with `fs::read` and is entirely
independent of the injected reader; the injected reader supplies the content
of `Replace` tasks, whose upload (when any) carries exactly the reader's
bytes. -/
theorem put_reads_fs_replace_reads_injected {π : Type}
    (fsRead rd : π → Except String Bytes)
    (inferMime : π → Except String (Option String)) (digest : Bytes → Checksum)
    (lp : π) (r : String) (c : Option Checksum) (bytesFs bytesRd : Bytes)
    (mt : Option String) :
    (∀ rd' : π → Except String Bytes,
      (Task.Put lp r).plan fsRead rd inferMime digest =
        (Task.Put lp r).plan fsRead rd' inferMime digest) ∧
    (fsRead lp = .ok bytesFs → inferMime lp = .ok mt →
      (Task.Put lp r).plan fsRead rd inferMime digest =
        .ok ⟨r, .Put bytesFs mt⟩) ∧
    (rd lp = .ok bytesRd → inferMime lp = .ok mt →
      (Task.Replace lp r c).plan fsRead rd inferMime digest =
          .ok ⟨r, .Ignore⟩ ∨
        (Task.Replace lp r c).plan fsRead rd inferMime digest =
          .ok ⟨r, .Put bytesRd mt⟩) := by
  refine ⟨fun rd' => rfl, fun hfs hmt => by simp [Task.plan, hfs, hmt], ?_⟩
  intro hrd hmt
  by_cases h : some (digest bytesRd) = c
  · left; simp [Task.plan, hrd, hmt, h]
  · right; simp [Task.plan, hrd, hmt, h]

/-- C9 witness: with a filesystem returning `[7]` and a reader returning
`[1]`, `Put` uploads the filesystem bytes and `Replace` uploads the reader
bytes. -/
theorem put_reads_fs_replace_reads_injected_witness :
    (Task.Put "p" "r").plan (fun _ => .ok [7]) (fun _ => .ok [1])
        (fun _ => .ok none) (fun bs => bs) = .ok ⟨"r", .Put [7] none⟩ ∧
    ((Task.Replace "p" "r" (some [9])).plan (fun _ => .ok [7])
          (fun _ => .ok [1]) (fun _ => .ok none) (fun bs => bs) =
        .ok ⟨"r", .Ignore⟩ ∨
      (Task.Replace "p" "r" (some [9])).plan (fun _ => .ok [7])
          (fun _ => .ok [1]) (fun _ => .ok none) (fun bs => bs) =
        .ok ⟨"r", .Put [1] none⟩) := by
  have h := put_reads_fs_replace_reads_injected (π := String) (fun _ => .ok [7])
    (fun _ => .ok [1]) (fun _ => .ok none) (fun bs => bs) "p" "r" (some [9])
    [7] [1] none
  exact ⟨h.2.1 rfl rfl, h.2.2 rfl rfl⟩

/-! ### Association-list and counting helpers for the planner proofs -/

theorem lookup_isSome_iff {β : Type} {l : List (String × β)} {k : String} :
    (l.lookup k).isSome = true ↔ k ∈ l.map Prod.fst := by
  induction l with
  | nil => simp [List.lookup]
  | cons kv l ih =>
    obtain ⟨a, v⟩ := kv
    by_cases h : k = a
    · subst h; simp [List.lookup]
    · have hb : (k == a) = false := by simp [h]
      simp [List.lookup, hb, ih, h]

theorem lookup_mem {β : Type} {l : List (String × β)} {k : String} {v : β}
    (h : l.lookup k = some v) : (k, v) ∈ l := by
  induction l with
  | nil => simp [List.lookup] at h
  | cons kv l ih =>
    obtain ⟨a, w⟩ := kv
    by_cases hk : k = a
    · subst hk
      simp [List.lookup] at h
      simp [h]
    · have hb : (k == a) = false := by simp [hk]
      simp [List.lookup, hb] at h
      simp [ih h]

theorem planJobsFun_eq_some {π : Type} {localM : List (String × π)}
    {remoteM : List (String × Option Checksum)} {k : String} {t : Task π}
    (h : planJobsFun localM remoteM k = some t) :
    t.remoteName = k ∧
      ∃ p, localM.lookup k = some p ∧
        ((∃ c, remoteM.lookup k = some c ∧ t = Task.Replace p k c) ∨
          (remoteM.lookup k = none ∧ t = Task.Put p k)) := by
  unfold planJobsFun at h
  cases hl : localM.lookup k with
  | none => rw [hl] at h; simp at h
  | some p =>
    rw [hl] at h
    cases hr : remoteM.lookup k with
    | none =>
      rw [hr] at h
      simp at h
      subst h
      exact ⟨rfl, p, rfl, Or.inr ⟨rfl, rfl⟩⟩
    | some c =>
      rw [hr] at h
      simp at h
      subst h
      exact ⟨rfl, p, rfl, Or.inl ⟨c, rfl, rfl⟩⟩

theorem planJobsFun_isSome {π : Type} (localM : List (String × π))
    (remoteM : List (String × Option Checksum)) {k : String}
    (h : k ∈ localM.map Prod.fst) :
    ∃ t : Task π, planJobsFun localM remoteM k = some t ∧
      Task.remoteName t = k := by
  obtain ⟨p, hp⟩ := Option.isSome_iff_exists.mp (lookup_isSome_iff.mpr h)
  unfold planJobsFun
  rw [hp]
  cases remoteM.lookup k <;> exact ⟨_, rfl, rfl⟩

theorem planJobs_countP {π : Type} (localM : List (String × π))
    (remoteM : List (String × Option Checksum)) (k : String) :
    ∀ keys : List String, (∀ x ∈ keys, x ∈ localM.map Prod.fst) →
      (keys.filterMap (planJobsFun localM remoteM)).countP
          (fun t => t.remoteName == k) =
        keys.countP (fun x => x == k) := by
  intro keys
  induction keys with
  | nil => simp
  | cons x ks ih =>
    intro hmem
    obtain ⟨t, hft, hname⟩ :=
      planJobsFun_isSome localM remoteM (hmem x (by simp))
    rw [List.filterMap_cons, hft, List.countP_cons, List.countP_cons, hname,
      ih fun y hy => hmem y (List.mem_cons_of_mem _ hy)]

theorem countP_beq_eq_zero {l : List String} {k : String} (h : k ∉ l) :
    l.countP (fun x => x == k) = 0 := by
  refine List.countP_eq_zero.mpr ?_
  intro a ha
  simp only [beq_iff_eq]
  rintro rfl
  exact h ha

theorem countP_beq_of_nodup {l : List String} (h : l.Nodup) (k : String) :
    l.countP (fun x => x == k) = if k ∈ l then 1 else 0 := by
  induction l with
  | nil => simp
  | cons a l ih =>
    rcases List.nodup_cons.mp h with ⟨ha, hl⟩
    rw [List.countP_cons]
    by_cases hk : a = k
    · subst hk
      simp [countP_beq_eq_zero ha]
    · have hb : (a == k) = false := by simp [hk]
      simp [hb, ih hl, Ne.symm hk]

theorem countP_beq_filter (q : String → Bool) (k : String) (R : List String) :
    (R.filter q).countP (fun x => x == k) =
      if q k = true then R.countP (fun x => x == k) else 0 := by
  induction R with
  | nil => simp
  | cons a R ih =>
    by_cases ha : a = k
    · subst ha
      cases hq : q a <;> simp [List.filter_cons, hq, List.countP_cons, ih]
    · have hb : (a == k) = false := by simp [ha]
      cases hq : q a <;>
        simp [List.filter_cons, hq, List.countP_cons, ih, hb]

/-- The predicate `must_remove` filters remote keys with, in propositional
form. -/
theorem mustRemove_pred_iff {π : Type} (localM : List (String × π))
    (ignore : List String) (k : String) :
    (!((localM.map Prod.fst).contains k) &&
        !(ignore.any fun pre => pre.data.isPrefixOf k.data)) = true ↔
      k ∉ localM.map Prod.fst ∧
        (ignore.any fun pre => pre.data.isPrefixOf k.data) = false := by
  rw [Bool.and_eq_true, Bool.not_eq_true', Bool.not_eq_true']
  have hc : ((localM.map Prod.fst).contains k = true) ↔
      k ∈ localM.map Prod.fst := List.elem_iff
  constructor
  · rintro ⟨h1, h2⟩
    refine ⟨fun hmem => ?_, h2⟩
    rw [hc.mpr hmem] at h1
    cases h1
  · rintro ⟨h1, h2⟩
    refine ⟨?_, h2⟩
    cases hcv : (localM.map Prod.fst).contains k
    · rfl
    · exact absurd (hc.mp hcv) h1

theorem mem_mustRemove_iff {π : Type} {localM : List (String × π)}
    {remoteM : List (String × Option Checksum)} {ignore : List String}
    {k : String} :
    k ∈ mustRemove localM remoteM ignore ↔
      k ∈ remoteM.map Prod.fst ∧ k ∉ localM.map Prod.fst ∧
        (ignore.any fun pre => pre.data.isPrefixOf k.data) = false := by
  unfold mustRemove
  rw [List.mem_filter, mustRemove_pred_iff]

/-! ### C1 — `plan_sync` emits exactly one task per relevant key -/

/-- C1. For every key `k`, `plan_sync` emits exactly one task addressing `k`
when `k` is a local key or a remote-only unprotected key and none otherwise;
the task is a `Put` iff `k` is local-only, a `Replace` (carrying the remote
checksum) iff `k` is in both maps, and a `Delete` iff `k` is remote-only and
starts with no protected prefix (plain string-prefix test). -/
theorem planSync_task_partition {π : Type} (localM : List (String × π))
    (remoteM : List (String × Option Checksum)) (ignore : List String)
    (hl : (localM.map Prod.fst).Nodup) (hr : (remoteM.map Prod.fst).Nodup)
    (k : String) :
    ((planSync localM remoteM ignore).countP (fun t => t.remoteName == k) =
      if k ∈ localM.map Prod.fst ∨
          (k ∈ remoteM.map Prod.fst ∧ k ∉ localM.map Prod.fst ∧
            (ignore.any fun pre => pre.data.isPrefixOf k.data) = false)
        then 1 else 0) ∧
    (∀ t ∈ planSync localM remoteM ignore, t.remoteName = k →
      ((∃ p, t = Task.Put p k) ↔
          k ∈ localM.map Prod.fst ∧ k ∉ remoteM.map Prod.fst) ∧
      ((∃ p c, t = Task.Replace p k c) ↔
          k ∈ localM.map Prod.fst ∧ k ∈ remoteM.map Prod.fst) ∧
      (t = Task.Delete k ↔
          k ∈ remoteM.map Prod.fst ∧ k ∉ localM.map Prod.fst ∧
            (ignore.any fun pre => pre.data.isPrefixOf k.data) = false)) ∧
    (∀ (p : π) (c : Option Checksum),
      Task.Replace p k c ∈ planSync localM remoteM ignore →
        remoteM.lookup k = some c) := by
  have hperm : (List.insertionSort PathLe (localM.map Prod.fst)).Perm
      (localM.map Prod.fst) := List.perm_insertionSort PathLe _
  have hkeys : ∀ x ∈ List.insertionSort PathLe (localM.map Prod.fst),
      x ∈ localM.map Prod.fst := fun x hx => hperm.mem_iff.mp hx
  refine ⟨?_, ?_, ?_⟩
  · rw [planSync, List.countP_append]
    have hjobs : (planJobs localM remoteM).countP (fun t => t.remoteName == k) =
        (localM.map Prod.fst).countP (fun x => x == k) := by
      rw [planJobs, planJobs_countP localM remoteM k _ hkeys]
      exact hperm.countP_eq _
    have hdel : ((mustRemove localM remoteM ignore).map
          (Task.Delete : String → Task π)).countP
          (fun t => t.remoteName == k) =
        (mustRemove localM remoteM ignore).countP (fun x => x == k) := by
      rw [List.countP_map]
      rfl
    rw [hjobs, hdel, countP_beq_of_nodup hl k]
    unfold mustRemove
    rw [countP_beq_filter, countP_beq_of_nodup hr k]
    by_cases h1 : k ∈ localM.map Prod.fst <;>
      by_cases h2 : k ∈ remoteM.map Prod.fst <;>
        by_cases h3 : (ignore.any fun pre => pre.data.isPrefixOf k.data) = false <;>
          simp [h1, h2, h3, mustRemove_pred_iff localM ignore k]
  · intro t ht hname
    rw [planSync, List.mem_append] at ht
    rcases ht with ht | ht
    · rw [planJobs] at ht
      obtain ⟨x, _hx, hfx⟩ := List.mem_filterMap.mp ht
      obtain ⟨hxname, p, hlp, hcase⟩ := planJobsFun_eq_some hfx
      have hxk : x = k := by rw [← hname, hxname]
      subst hxk
      have hkL : x ∈ localM.map Prod.fst :=
        lookup_isSome_iff.mp (by simp [hlp])
      rcases hcase with ⟨c, hrc, rfl⟩ | ⟨hrc, rfl⟩
      · have hkR : x ∈ remoteM.map Prod.fst :=
          lookup_isSome_iff.mp (by simp [hrc])
        refine ⟨?_, ?_, ?_⟩
        · simp [hkR]
        · simp [hkL, hkR]
        · simp [hkL]
      · have hkR : x ∉ remoteM.map Prod.fst := by
          intro hmem
          have := lookup_isSome_iff.mpr hmem
          rw [hrc] at this
          simp at this
        refine ⟨?_, ?_, ?_⟩
        · simp [hkL, hkR]
        · simp [hkR]
        · simp [hkL]
    · obtain ⟨s, hs, hst⟩ := List.mem_map.mp ht
      have hsk : s = k := by
        rw [← hname, ← hst]
        rfl
      subst hsk
      subst hst
      rw [mem_mustRemove_iff] at hs
      refine ⟨?_, ?_, ?_⟩
      · simp [hs.2.1]
      · simp [hs.2.1]
      · simp [hs]
  · intro p c ht
    rw [planSync, List.mem_append] at ht
    rcases ht with ht | ht
    · rw [planJobs] at ht
      obtain ⟨x, _hx, hfx⟩ := List.mem_filterMap.mp ht
      obtain ⟨hxname, p', hlp, hcase⟩ := planJobsFun_eq_some hfx
      rcases hcase with ⟨c', hrc, heq⟩ | ⟨_, heq⟩
      · have : p' = p ∧ x = k ∧ c' = c := by
          constructor
          · exact (Task.Replace.injEq _ _ _ _ _ _).mp heq.symm |>.1
          constructor
          · exact (Task.Replace.injEq _ _ _ _ _ _).mp heq.symm |>.2.1
          · exact (Task.Replace.injEq _ _ _ _ _ _).mp heq.symm |>.2.2
        obtain ⟨rfl, rfl, rfl⟩ := this
        exact hrc
      · exact absurd heq.symm (by simp)
    · obtain ⟨s, _hs, hst⟩ := List.mem_map.mp ht
      exact absurd hst (by simp)

/-- C1 witness at concrete maps: the shared key gets one `Replace`, the
remote-only unprotected key one `Delete`, and the protected remote-only key
no task at all. -/
theorem planSync_task_partition_witness :
    (planSync [("a.txt", "p1"), ("index.html", "p2")]
        [("a.txt", some [1]), ("old.txt", none), ("keep/x", none)]
        ["keep"]).countP (fun t => t.remoteName == "old.txt") = 1 ∧
    (planSync [("a.txt", "p1"), ("index.html", "p2")]
        [("a.txt", some [1]), ("old.txt", none), ("keep/x", none)]
        ["keep"]).countP (fun t => t.remoteName == "keep/x") = 0 ∧
    (planSync [("a.txt", "p1"), ("index.html", "p2")]
        [("a.txt", some [1]), ("old.txt", none), ("keep/x", none)]
        ["keep"]).countP (fun t => t.remoteName == "a.txt") = 1 := by
  have h1 := (planSync_task_partition (π := String)
    [("a.txt", "p1"), ("index.html", "p2")]
    [("a.txt", some [1]), ("old.txt", none), ("keep/x", none)]
    ["keep"] (by decide) (by decide) "old.txt").1
  have h2 := (planSync_task_partition (π := String)
    [("a.txt", "p1"), ("index.html", "p2")]
    [("a.txt", some [1]), ("old.txt", none), ("keep/x", none)]
    ["keep"] (by decide) (by decide) "keep/x").1
  have h3 := (planSync_task_partition (π := String)
    [("a.txt", "p1"), ("index.html", "p2")]
    [("a.txt", some [1]), ("old.txt", none), ("keep/x", none)]
    ["keep"] (by decide) (by decide) "a.txt").1
  refine ⟨?_, ?_, ?_⟩
  · rw [h1]; decide
  · rw [h2]; decide
  · rw [h3]; decide

/-! ### C3 — ordering of the planned task list -/

theorem planJobs_keys_sublist {π : Type} (localM : List (String × π))
    (remoteM : List (String × Option Checksum)) :
    ∀ keys : List String,
      ((keys.filterMap (planJobsFun localM remoteM)).map
        Task.remoteName).Sublist keys := by
  intro keys
  induction keys with
  | nil => simp
  | cons x ks ih =>
    cases hfx : planJobsFun localM remoteM x with
    | none =>
      rw [List.filterMap_cons, hfx]
      exact ih.cons x
    | some t =>
      rw [List.filterMap_cons, hfx, List.map_cons, (planJobsFun_eq_some hfx).1]
      exact ih.cons₂ x

/-- C3. The plan is the Put/Replace segment followed by the Delete segment,
and within the Put/Replace segment every key whose name is not HTML-like
precedes every key whose name is, with keys in ascending byte order inside
each of the two groups. -/
theorem planSync_ordering {π : Type} (localM : List (String × π))
    (remoteM : List (String × Option Checksum)) (ignore : List String) :
    planSync localM remoteM ignore =
      planJobs localM remoteM ++
        (mustRemove localM remoteM ignore).map Task.Delete ∧
    (∀ t ∈ planJobs localM remoteM,
      (∃ p r, t = Task.Put p r) ∨ ∃ p r c, t = Task.Replace p r c) ∧
    (∀ t ∈ (mustRemove localM remoteM ignore).map
        (Task.Delete : String → Task π), ∃ r, t = Task.Delete r) ∧
    List.Pairwise
      (fun a b => (isHtmlName a = false ∧ isHtmlName b = true) ∨
        (isHtmlName a = isHtmlName b ∧ lexLeChars a.data b.data = true))
      ((planJobs localM remoteM).map Task.remoteName) := by
  refine ⟨rfl, ?_, ?_, ?_⟩
  · intro t ht
    obtain ⟨x, _hx, hfx⟩ := List.mem_filterMap.mp ht
    obtain ⟨_hname, p, _hlp, hcase⟩ := planJobsFun_eq_some hfx
    rcases hcase with ⟨c, _hrc, rfl⟩ | ⟨_hrc, rfl⟩
    · right; exact ⟨p, x, c, rfl⟩
    · left; exact ⟨p, x, rfl⟩
  · intro t ht
    obtain ⟨s, _hs, rfl⟩ := List.mem_map.mp ht
    exact ⟨s, rfl⟩
  · have hsorted : List.Sorted PathLe
        (List.insertionSort PathLe (localM.map Prod.fst)) :=
      List.sorted_insertionSort PathLe _
    have hsub := planJobs_keys_sublist localM remoteM
      (List.insertionSort PathLe (localM.map Prod.fst))
    have hpair : List.Pairwise PathLe
        ((planJobs localM remoteM).map Task.remoteName) :=
      List.Pairwise.sublist hsub hsorted
    refine hpair.imp ?_
    intro a b hab
    unfold PathLe pathOrdLe at hab
    cases ha : isHtmlName a <;> cases hb : isHtmlName b <;>
      rw [ha, hb] at hab <;> simp at hab <;> simp [ha, hb] <;>
        try exact hab

/-! ### C4 — a fully synced state plans only `Replace` and resolves to
`Skip` everywhere -/

/-- C4. When every local key is remote, every remote key is local, and every
remote checksum is `some` of the digest of the bytes the reader returns for
the corresponding local path, `plan_sync` yields only `Replace` tasks and
each of them resolves to `Skip` (`Action.Ignore`). -/
theorem planSync_idempotent {π : Type} (localM : List (String × π))
    (remoteM : List (String × Option Checksum)) (ignore : List String)
    (fsRead rd : π → Except String Bytes)
    (inferMime : π → Except String (Option String)) (digest : Bytes → Checksum)
    (_hLR : ∀ kv ∈ localM, kv.1 ∈ remoteM.map Prod.fst)
    (hRL : ∀ kv ∈ remoteM, kv.1 ∈ localM.map Prod.fst)
    (hck : ∀ (k : String) (p : π), localM.lookup k = some p →
      ∃ bs, rd p = .ok bs ∧ remoteM.lookup k = some (some (digest bs)))
    (hinf : ∀ (k : String) (p : π), localM.lookup k = some p →
      ∃ m, inferMime p = .ok m) :
    (∀ t ∈ planSync localM remoteM ignore, ∃ p k c, t = Task.Replace p k c) ∧
    (∀ t ∈ planSync localM remoteM ignore,
      t.plan fsRead rd inferMime digest = .ok ⟨t.remoteName, .Ignore⟩) := by
  have hdel : mustRemove localM remoteM ignore = [] := by
    unfold mustRemove
    rw [List.filter_eq_nil_iff]
    intro a ha
    obtain ⟨kv, hkv, rfl⟩ := List.mem_map.mp ha
    intro hpred
    exact (mustRemove_pred_iff localM ignore kv.1 |>.mp hpred).1 (hRL kv hkv)
  have hplan : planSync localM remoteM ignore = planJobs localM remoteM := by
    rw [planSync, hdel]
    simp
  have hshape : ∀ t ∈ planJobs localM remoteM,
      ∃ (p : π) (k : String) (bs : Bytes),
        t = Task.Replace p k (some (digest bs)) ∧ rd p = .ok bs ∧
          localM.lookup k = some p := by
    intro t ht
    obtain ⟨x, _hx, hfx⟩ := List.mem_filterMap.mp ht
    obtain ⟨_hname, p, hlp, hcase⟩ := planJobsFun_eq_some hfx
    obtain ⟨bs, hbs, hrsome⟩ := hck x p hlp
    rcases hcase with ⟨c, hrc, rfl⟩ | ⟨hrc, rfl⟩
    · have hc : c = some (digest bs) := by
        rw [hrc] at hrsome
        exact (Option.some.injEq _ _).mp hrsome
      exact ⟨p, x, bs, by rw [hc], hbs, hlp⟩
    · rw [hrc] at hrsome
      cases hrsome
  rw [hplan]
  constructor
  · intro t ht
    obtain ⟨p, k, bs, rfl, _, _⟩ := hshape t ht
    exact ⟨p, k, some (digest bs), rfl⟩
  · intro t ht
    obtain ⟨p, k, bs, rfl, hbs, hlp⟩ := hshape t ht
    obtain ⟨m, hm⟩ := hinf k p hlp
    simp [Task.plan, hbs, hm, Task.remoteName]

/-- C4 witness at a one-file store whose remote checksum matches the local
content: the plan is a single `Replace` and it resolves to `Skip`. -/
theorem planSync_idempotent_witness :
    planSync [("x", "px")] [("x", some [1, 2])] ([] : List String) =
      [Task.Replace "px" "x" (some [1, 2])] ∧
    (Task.Replace "px" "x" (some [1, 2])).plan
        (fun _ => .error "unused") (fun _ => .ok [1, 2])
        (fun _ => .ok none) (fun bs => bs) = .ok ⟨"x", .Ignore⟩ := by
  have h := planSync_idempotent (π := String) [("x", "px")]
    [("x", some [1, 2])] [] (fun _ => .error "unused") (fun _ => .ok [1, 2])
    (fun _ => .ok none) (fun bs => bs) (by decide) (by decide)
    (fun k p hlp => by
      by_cases hk : k = "x"
      · subst hk
        simp [List.lookup] at hlp
        subst hlp
        exact ⟨[1, 2], rfl, by simp [List.lookup]⟩
      · simp [List.lookup, show (k == "x") = false by simp [hk]] at hlp)
    (fun k p hlp => ⟨none, rfl⟩)
  refine ⟨by decide, ?_⟩
  exact h.2 (Task.Replace "px" "x" (some [1, 2])) (by decide)

/-! ### Remote side effects

The object store is only mutated through `put_file` and `delete_file` on
`StorageZoneClient`; the embedding records each such call as an `Effect`.
Whether the HTTP call itself succeeds is a parameter (`putRes`, `delRes`),
since it depends on the network. -/

/-- A remote mutation issued by the program: one `put_file` or one
`delete_file` call of `src/api.rs`. -/
inductive Effect where
  | putFile (path : String) (body : Bytes) (contentType : Option String)
  | deleteFile (path : String)
deriving DecidableEq

/-- The byte rendering of a string (`ts.bytes().collect()` in `lock.rs`);
codepoints stand in for UTF-8 bytes, an equality-preserving encoding. -/
def strBytes (s : String) : Bytes := s.data.map Char.toNat

/-- Replays a list of effects against a store state (name → content). -/
def applyEffects (store : String → Option Bytes) : List Effect → (String → Option Bytes)
  | [] => store
  | .putFile p b _ :: es =>
    applyEffects (fun q => if q = p then some b else store q) es
  | .deleteFile p :: es =>
    applyEffects (fun q => if q = p then none else store q) es

/-! ### The lock manager (`src/lock.rs`) -/

/-- Embeds `Lock::new` from `src/lock.rs`. `store lockfile` is the marker
content when `client.read_file(lockfile)` succeeds (`none` = the read
fails, i.e. no marker); `ts` is `Local::now().to_rfc3339()`, the RFC3339
rendering of the current time; `putRes` is the outcome of the
`client.put_file` HTTP call. Returns the effects issued and the result. -/
def Lock.new (store : String → Option Bytes)
    (putRes : String → Bytes → Option String → Except String Unit)
    (lockfile : String) (force : Bool) (ts : String) :
    List Effect × Except String Unit :=
  match store lockfile with
  | some _ =>
    if force = false then
      ([], .error ("Dangling lock in " ++ lockfile ++ " prevents sync"))
    else
      ([.putFile lockfile (strBytes ts) (some "text/plain")],
       match putRes lockfile (strBytes ts) (some "text/plain") with
       | .ok _ => .ok ()
       | .error e => .error e)
  | none =>
    ([.putFile lockfile (strBytes ts) (some "text/plain")],
     match putRes lockfile (strBytes ts) (some "text/plain") with
     | .ok _ => .ok ()
     | .error e => .error e)

/-! ### C5 — lock acquisition -/

/-- C5. With a readable marker and `force = false`, `Lock::new` fails with
the lock-held error, issues no write, and leaves the marker content
unchanged; with `force = true` it writes the RFC3339 timestamp over the
marker and succeeds; with no readable marker it writes the timestamp and
succeeds. -/
theorem lock_acquire_spec (store : String → Option Bytes)
    (putRes : String → Bytes → Option String → Except String Unit)
    (lockfile : String) (force : Bool) (ts : String) :
    (∀ t : Bytes, store lockfile = some t → force = false →
      Lock.new store putRes lockfile force ts =
        ([], .error ("Dangling lock in " ++ lockfile ++ " prevents sync")) ∧
      applyEffects store (Lock.new store putRes lockfile force ts).1 lockfile =
        some t) ∧
    (force = true → putRes lockfile (strBytes ts) (some "text/plain") = .ok () →
      Lock.new store putRes lockfile force ts =
        ([.putFile lockfile (strBytes ts) (some "text/plain")], .ok ()) ∧
      applyEffects store (Lock.new store putRes lockfile force ts).1 lockfile =
        some (strBytes ts)) ∧
    (store lockfile = none →
        putRes lockfile (strBytes ts) (some "text/plain") = .ok () →
      Lock.new store putRes lockfile force ts =
        ([.putFile lockfile (strBytes ts) (some "text/plain")], .ok ())) := by
  refine ⟨?_, ?_, ?_⟩
  · intro t hread hforce
    subst hforce
    constructor
    · simp [Lock.new, hread]
    · simp [Lock.new, hread, applyEffects, hread]
  · intro hforce hput
    subst hforce
    cases hread : store lockfile with
    | some t =>
      constructor
      · simp [Lock.new, hread, hput]
      · simp [Lock.new, hread, hput, applyEffects]
    | none =>
      constructor
      · simp [Lock.new, hread, hput]
      · simp [Lock.new, hread, hput, applyEffects]
  · intro hread hput
    cases force <;> simp [Lock.new, hread, hput]

/-- C5 witness: concrete held-marker refusal, forced overwrite, and free
acquisition. -/
theorem lock_acquire_spec_witness :
    Lock.new (fun _ => some [48]) (fun _ _ _ => .ok ()) "lk" false "t" =
      ([], .error ("Dangling lock in " ++ "lk" ++ " prevents sync")) ∧
    Lock.new (fun _ => some [48]) (fun _ _ _ => .ok ()) "lk" true "t" =
      ([.putFile "lk" (strBytes "t") (some "text/plain")], .ok ()) ∧
    Lock.new (fun _ => none) (fun _ _ _ => .ok ()) "lk" false "t" =
      ([.putFile "lk" (strBytes "t") (some "text/plain")], .ok ()) := by
  refine ⟨?_, ?_, ?_⟩
  · exact ((lock_acquire_spec (fun _ => some [48]) (fun _ _ _ => .ok ())
      "lk" false "t").1 [48] rfl rfl).1
  · exact ((lock_acquire_spec (fun _ => some [48]) (fun _ _ _ => .ok ())
      "lk" true "t").2.1 rfl rfl).1
  · exact (lock_acquire_spec (fun _ => none) (fun _ _ _ => .ok ())
      "lk" false "t").2.2 rfl rfl

/-! ### The object-store client (`src/api.rs`)

The HTTP stack is external: a request is modelled by the response the
server hands back. `HttpResponse.jsonList` is the outcome of
`response.json::<Vec<FileInfo>>()` (serde is external code), and
`HttpResponse.text` the outcome of `response.text()`. -/

/-- The listing entry `FileInfo` of `src/api.rs` (the fields the program
deserializes). -/
structure FileInfo where
  path : String
  objectName : String
  checksum : Option String
  isDirectory : Bool
deriving DecidableEq

/-- An HTTP response as the program observes it. -/
structure HttpResponse where
  status : Nat
  text : String
  jsonList : Except String (List FileInfo)

/-- reqwest's `StatusCode::is_success`: status in `200..=299`. -/
def is2xx (status : Nat) : Bool := 200 ≤ status && status ≤ 299

/-- reqwest's `Response::error_for_status` predicate: errors exactly on
`400..=599` (client and server errors). -/
def isClientOrServerError (status : Nat) : Bool :=
  400 ≤ status && status ≤ 599

/-- Embeds `StorageZoneClient::read_file`: succeeds with the text body iff
the status is 2xx. `server` maps the request path to its response. -/
def read_file (server : String → HttpResponse) (path : String) :
    Except String String :=
  let r := server path
  if is2xx r.status then .ok r.text else .error "Unable to read"

/-- Embeds `StorageZoneClient::ls_dir`: `Ok(response.json()?)`, with no
status check of any kind. -/
def ls_dir (server : String → HttpResponse) (path : String) :
    Except String (List FileInfo) :=
  (server path).jsonList

/-- Embeds the status handling of `StorageZoneClient::put_file`. -/
def put_file_status (status : Nat) : Except String Unit :=
  if is2xx status then .ok () else .error "Request failed"

/-- Embeds the status handling of `StorageZoneClient::delete_file`, which
uses `error_for_status`. -/
def delete_file_status (status : Nat) : Except String Unit :=
  if isClientOrServerError status then .error "Status error" else .ok ()

/-- Rust's `str::trim_end_matches('/')`: drops every trailing slash. -/
def trimEndSlashes (s : String) : String :=
  ⟨(s.data.reverse.dropWhile (fun c => c == '/')).reverse⟩

/-- Rust's `str::trim_start_matches(pat)`: repeatedly strips the leading
occurrence of `pat`. Each strip removes at least one character, so
`s.length` steps of fuel always suffice; the fuel keeps the recursion
structural. -/
def trimStartML (pat : List Char) : Nat → List Char → List Char
  | 0, s => s
  | fuel + 1, s =>
    if pat.isEmpty then s
    else if pat.isPrefixOf s then trimStartML pat fuel (s.drop pat.length)
    else s

/-- String wrapper for `trim_start_matches`. -/
def trimStartMatchesStr (s pat : String) : String :=
  ⟨trimStartML pat.data s.data.length s.data⟩

/-- The subtree path `concurrent_discover_files` queues for a directory
child: `format!("{}/{}/", path.trim_start_matches(gp).trim_end_matches('/'),
object_name)` with `gp = "/{zone}/"`. -/
def subtreeOf (zone : String) (child : FileInfo) : String :=
  trimEndSlashes (trimStartMatchesStr child.path ("/" ++ zone ++ "/")) ++
    "/" ++ child.objectName ++ "/"

/-- Embeds the coordinator loop of `concurrent_discover_files`
sequentially: the worklist stands for the work channel (one admissible
schedule of the worker pool). Each step lists one directory, discards
protected child directories, queues the rest and accumulates file entries.
`fuel` bounds the number of listing calls. -/
def discoverLoop (server : String → HttpResponse) (zone : String)
    (skip : List String) :
    Nat → List String → List FileInfo → Except String (List FileInfo)
  | _, [], acc => .ok acc
  | 0, _ :: _, _ => .error "out of fuel"
  | fuel + 1, p :: rest, acc =>
    match ls_dir server p with
    | .error e => .error e
    | .ok children =>
      let newDirs := (children.filter fun c => c.isDirectory).filterMap
        fun c =>
          let subtree := subtreeOf zone c
          if skip.any (fun sk => sk.data.isPrefixOf subtree.data) then none
          else some subtree
      let newFiles := children.filter fun c => !c.isDirectory
      discoverLoop server zone skip fuel (rest ++ newDirs) (acc ++ newFiles)

/-- Embeds `StorageZoneClient::concurrent_discover_files`. -/
def concurrent_discover_files (server : String → HttpResponse)
    (zone : String) (skip : List String) (fuel : Nat) (path : String) :
    Except String (List FileInfo) :=
  discoverLoop server zone skip fuel [path] []

/-- Value of one hexadecimal digit, as the `hex` crate accepts them. -/
def hexVal (c : Char) : Option Nat :=
  if 48 ≤ c.toNat ∧ c.toNat ≤ 57 then some (c.toNat - 48)
  else if 97 ≤ c.toNat ∧ c.toNat ≤ 102 then some (c.toNat - 87)
  else if 65 ≤ c.toNat ∧ c.toNat ≤ 70 then some (c.toNat - 55)
  else none

/-- Decodes hex-digit pairs into bytes; `none` on odd length or a non-hex
character. -/
def hexPairs : List Char → Option (List Nat)
  | [] => some []
  | [_] => none
  | a :: b :: rest =>
    match hexVal a, hexVal b, hexPairs rest with
    | some hi, some lo, some bytes => some ((16 * hi + lo) :: bytes)
    | _, _, _ => none

/-- Embeds `hex::decode_to_slice(checksum, &mut [0u8; 32])` as `list_files`
uses it: the input must be exactly 64 hexadecimal characters. -/
def decodeChecksumHex (s : String) : Except String Checksum :=
  if s.data.length = 64 then
    match hexPairs s.data with
    | some bytes => .ok bytes
    | none => .error "InvalidHexCharacter"
  else .error "InvalidStringLength"

/-- The remote key `list_files` computes for an entry:
`path.trim_start_matches("/{zone}/") ++ object_name`. -/
def remoteKeyOf (zone : String) (fi : FileInfo) : String :=
  trimStartMatchesStr fi.path ("/" ++ zone ++ "/") ++ fi.objectName

/-- Loop body of `list_files`'s map build: decode the checksum when
present (a `?` on failure aborts the whole build), then insert under the
computed key. Cons onto the front gives `FxHashMap::insert` overwrite
semantics under `List.lookup`. -/
def buildStep (zone : String) (m : List (String × Option Checksum))
    (fi : FileInfo) : Except String (List (String × Option Checksum)) :=
  match fi.checksum with
  | none => .ok ((remoteKeyOf zone fi, none) :: m)
  | some hx =>
    match decodeChecksumHex hx with
    | .error e => .error e
    | .ok ck => .ok ((remoteKeyOf zone fi, some ck) :: m)

/-- Embeds `StorageZoneClient::list_files`. -/
def list_files (server : String → HttpResponse) (zone : String)
    (skip : List String) (fuel : Nat) (path : String) :
    Except String (List (String × Option Checksum)) :=
  match concurrent_discover_files server zone skip fuel path with
  | .error e => .error e
  | .ok files => files.foldlM (buildStep zone) []

/-! ### The local scanner (`src/sync/local_path.rs`)

Paths are component lists. A component is either valid text or an opaque
non-decodable name (`OsString` whose `to_str` is `None`); the program only
observes components through `to_str`, equality and concatenation, so this
quotient is faithful. -/

/-- One file-name component. -/
inductive FName where
  | txt (s : String)
  | bin (id : Nat)
deriving DecidableEq

/-- `OsStr::to_str` on one component. -/
def FName.toText : FName → Option String
  | .txt s => some s
  | .bin _ => none

/-- A filesystem path: components below the scan root's parent. -/
abbrev FsPath := List FName

/-- `Path::to_str`: every component must decode; components are joined
with the separator. -/
def pathToStr : FsPath → Option String
  | [] => some ""
  | [n] => n.toText
  | n :: rest =>
    match n.toText, pathToStr rest with
    | some s, some r => some (s ++ "/" ++ r)
    | _, _ => none

/-- The filesystem queries `discover_files` makes. `isDir` and `isFile`
follow symbolic links (Rust's `Path::is_dir`/`is_file` stat the target);
`isSymlink` does not. `readDir` yields the entry names of a directory. -/
structure Fs where
  isDir : FsPath → Bool
  isFile : FsPath → Bool
  isSymlink : FsPath → Bool
  readDir : FsPath → Except String (List FName)

/-- Loop body of `discover_files`: a directory entry is recursed into
(after the `path.to_str().context("Invalid utf8")?` check; `PathBuf::from`
round-trips that string, so recursion continues on the same path), a
regular non-symlink file is collected, everything else is skipped.
`recurse` is the recursive call at the next fuel level. -/
def discoverStep (fs : Fs) (recurse : FsPath → Except String (List FsPath))
    (root : FsPath) (acc : List FsPath) (n : FName) :
    Except String (List FsPath) :=
  let p := root ++ [n]
  if fs.isDir p then
    match pathToStr p with
    | none => .error "Invalid utf8"
    | some _ =>
      match recurse p with
      | .error e => .error e
      | .ok sub => .ok (acc ++ sub)
  else if fs.isFile p && !fs.isSymlink p then .ok (acc ++ [p])
  else .ok acc

/-- Embeds `discover_files` from `src/sync/local_path.rs`. `fuel` bounds
recursion depth (symlinked directories can make the tree infinite). -/
def discover_files (fs : Fs) : Nat → FsPath → Except String (List FsPath)
  | 0, _ => .error "out of fuel"
  | fuel + 1, root =>
    if fs.isDir root then
      match fs.readDir root with
      | .error e => .error e
      | .ok entries =>
        entries.foldlM (discoverStep fs (discover_files fs fuel) root) []
    else .error "not a directory"

/-- Rust's `Path::strip_prefix`, at component level. -/
def stripPrefixPath (root p : FsPath) : Except String FsPath :=
  if root.isPrefixOf p then .ok (p.drop root.length)
  else .error "StripPrefixError"

/-- `remote_root.trim_start_matches("/").trim_end_matches("/")` from
`files_by_remote_name`: drops leading and trailing slashes. -/
def trimSlashes (s : String) : String :=
  ⟨((s.data.dropWhile fun c => c == '/').reverse.dropWhile
      fun c => c == '/').reverse⟩

/-- Loop body of `files_by_remote_name`: strip the scan root from the
file path, require the remainder to be text, and insert it under the
remote key (the trimmed remote root joined with a slash unless empty). -/
def remoteNameStep (root : FsPath) (rr : String)
    (m : List (String × FsPath)) (file : FsPath) :
    Except String (List (String × FsPath)) :=
  match stripPrefixPath root file with
  | .error e => .error e
  | .ok rel =>
    match pathToStr rel with
    | none => .error "Invalid utf8"
    | some s =>
      if rr = "" then .ok ((s, file) :: m)
      else .ok ((rr ++ "/" ++ s, file) :: m)

/-- Embeds `files_by_remote_name` from `src/sync/local_path.rs`. Cons onto
the front gives `FxHashMap::insert` overwrite semantics under
`List.lookup`. -/
def files_by_remote_name (fs : Fs) (fuel : Nat) (root : FsPath)
    (remoteRoot : String) : Except String (List (String × FsPath)) :=
  match discover_files fs fuel root with
  | .error e => .error e
  | .ok files => files.foldlM (remoteNameStep root (trimSlashes remoteRoot)) []

/-! ### C7 — HTTP status handling -/

/-- A server answering every request with status 500 and a body that
parses as an empty listing (a well-formed JSON array). -/
def badStatusServer : String → HttpResponse :=
  fun _ => ⟨500, "", .ok []⟩

/-- C7 counterexample: a directory-listing response with a non-2xx status
still succeeds when its body parses as a listing — `ls_dir` never consults
the status, so the enumeration succeeds rather than fails. -/
theorem ls_dir_ignores_status_counterexample :
    (badStatusServer "dir").status = 500 ∧
    is2xx (badStatusServer "dir").status = false ∧
    ls_dir badStatusServer "dir" = .ok [] ∧
    concurrent_discover_files badStatusServer "zone" [] 2 "dir" = .ok [] := by
  refine ⟨rfl, by decide, rfl, rfl⟩

/-- C7 amended: `read_file` and `put_file` error on every non-2xx status,
`delete_file` on every 4xx/5xx status, but the directory listing `ls_dir`
returns the parsed body with no status check at all: a listing call fails
iff its body fails to parse as a listing, whatever the status. -/
theorem http_status_error_policy (server : String → HttpResponse)
    (path : String) (status : Nat) :
    (is2xx (server path).status = false →
      read_file server path = .error "Unable to read") ∧
    (is2xx status = false →
      put_file_status status = .error "Request failed") ∧
    (isClientOrServerError status = true →
      delete_file_status status = .error "Status error") ∧
    ls_dir server path = (server path).jsonList := by
  refine ⟨fun h => ?_, fun h => ?_, fun h => ?_, rfl⟩
  · simp [read_file, h]
  · simp [put_file_status, h]
  · simp [delete_file_status, h]

/-- C7 amended witness at concrete statuses 500 and 404. -/
theorem http_status_error_policy_witness :
    read_file badStatusServer "p" = .error "Unable to read" ∧
    put_file_status 500 = .error "Request failed" ∧
    delete_file_status 404 = .error "Status error" := by
  have h := http_status_error_policy badStatusServer "p" 500
  exact ⟨h.1 (by decide), h.2.1 (by decide),
    (http_status_error_policy badStatusServer "p" 404).2.2.1 (by decide)⟩

/-! ### C10 — a malformed checksum aborts `list_files` -/

theorem hexPairs_eq_none : ∀ {l : List Char},
    (∃ c ∈ l, hexVal c = none) → hexPairs l = none
  | [], h => by simp at h
  | [_], _ => rfl
  | a :: b :: rest, h => by
    unfold hexPairs
    cases ha : hexVal a with
    | none => rfl
    | some hi =>
      cases hb : hexVal b with
      | none => simp [ha, hb]
      | some lo =>
        have hr : hexPairs rest = none := by
          apply hexPairs_eq_none
          rcases h with ⟨c, hc, hcv⟩
          rcases List.mem_cons.mp hc with rfl | hc'
          · rw [ha] at hcv
            exact absurd hcv (by simp)
          · rcases List.mem_cons.mp hc' with rfl | hc''
            · rw [hb] at hcv
              exact absurd hcv (by simp)
            · exact ⟨c, hc'', hcv⟩
        simp [ha, hb, hr]

theorem decodeChecksumHex_error {s : String}
    (hbad : ¬ (s.data.length = 64 ∧ ∀ c ∈ s.data, (hexVal c).isSome = true)) :
    ∃ e, decodeChecksumHex s = .error e := by
  unfold decodeChecksumHex
  by_cases hlen : s.data.length = 64
  · have hex : ∃ c ∈ s.data, hexVal c = none := by
      by_contra hall
      push_neg at hall
      refine hbad ⟨hlen, fun c hc => ?_⟩
      cases hv : hexVal c with
      | none => exact absurd hv (hall c hc)
      | some v => rfl
    exact ⟨"InvalidHexCharacter",
      by rw [if_pos hlen, hexPairs_eq_none hex]⟩
  · exact ⟨"InvalidStringLength", by rw [if_neg hlen]⟩

/-- A monadic fold over `Except` errors whenever some element makes the
step fail for every accumulator. -/
theorem foldlM_error_of_mem {α β : Type} {step : β → α → Except String β}
    {l : List α} {x : α} (hmem : x ∈ l)
    (hx : ∀ b, ∃ e, step b x = .error e) :
    ∀ b, ∃ e, l.foldlM step b = .error e := by
  induction l with
  | nil => cases hmem
  | cons a rest ih =>
    intro b
    rcases List.mem_cons.mp hmem with rfl | hmem'
    · obtain ⟨e, he⟩ := hx b
      exact ⟨e, by rw [List.foldlM_cons, he]; rfl⟩
    · cases hstep : step b a with
      | error e => exact ⟨e, by rw [List.foldlM_cons, hstep]; rfl⟩
      | ok b' =>
        obtain ⟨e, he⟩ := ih hmem' b'
        exact ⟨e, by rw [List.foldlM_cons, hstep]; simpa using he⟩

/-- C10. When enumeration succeeds and any listed file carries a checksum
string that is not exactly 64 hexadecimal characters — the empty string
included — `list_files` returns an error and produces no remote map. -/
theorem list_files_bad_checksum_aborts (server : String → HttpResponse)
    (zone : String) (skip : List String) (fuel : Nat) (path : String)
    (files : List FileInfo) (fi : FileInfo) (s : String)
    (hdisc : concurrent_discover_files server zone skip fuel path = .ok files)
    (hmem : fi ∈ files) (hck : fi.checksum = some s)
    (hbad : ¬ (s.data.length = 64 ∧ ∀ c ∈ s.data, (hexVal c).isSome = true)) :
    ∃ e, list_files server zone skip fuel path = .error e := by
  have hstep : ∀ m, ∃ e, buildStep zone m fi = .error e := by
    intro m
    obtain ⟨e, he⟩ := decodeChecksumHex_error hbad
    exact ⟨e, by simp [buildStep, hck, he]⟩
  obtain ⟨e, he⟩ := foldlM_error_of_mem hmem hstep []
  exact ⟨e, by simp [list_files, hdisc, he]⟩

/-- A server listing one file whose `Checksum` field is present but the
empty string. -/
def emptyChecksumServer : String → HttpResponse :=
  fun _ => ⟨200, "", .ok [⟨"/zone/", "a.txt", some "", false⟩]⟩

/-- C10 witness: a present-but-empty checksum string makes the whole
`list_files` run fail. -/
theorem list_files_bad_checksum_aborts_witness :
    list_files emptyChecksumServer "zone" [] 2 "p" =
      .error "InvalidStringLength" ∧
    (list_files emptyChecksumServer "zone" [] 2 "p").isOk = false := by
  refine ⟨rfl, ?_⟩
  obtain ⟨e, he⟩ := list_files_bad_checksum_aborts emptyChecksumServer "zone"
    [] 2 "p" [⟨"/zone/", "a.txt", some "", false⟩]
    ⟨"/zone/", "a.txt", some "", false⟩ "" rfl (by simp) rfl (by decide)
  rw [he]
  rfl

/-! ### C8 — the local scanner -/

theorem foldlM_discoverStep_mem {fs : Fs}
    {recurse : FsPath → Except String (List FsPath)} {root : FsPath}
    {P : FsPath → Prop}
    (hrec : ∀ p sub, recurse p = .ok sub → ∀ q ∈ sub, P q)
    (hfile : ∀ n : FName, fs.isDir (root ++ [n]) = false →
      fs.isFile (root ++ [n]) = true → fs.isSymlink (root ++ [n]) = false →
      P (root ++ [n])) :
    ∀ (entries : List FName) (acc res : List FsPath),
      entries.foldlM (discoverStep fs recurse root) acc = .ok res →
      (∀ q ∈ acc, P q) → ∀ q ∈ res, P q := by
  intro entries
  induction entries with
  | nil =>
    intro acc res h hacc
    rw [List.foldlM_nil] at h
    cases h
    exact hacc
  | cons n rest ih =>
    intro acc res h hacc
    rw [List.foldlM_cons] at h
    cases hstep : discoverStep fs recurse root acc n with
    | error e =>
      rw [hstep] at h
      exact absurd h (fun hh => Except.noConfusion hh)
    | ok acc' =>
      rw [hstep] at h
      have hacc' : ∀ q ∈ acc', P q := by
        unfold discoverStep at hstep
        by_cases hdir : fs.isDir (root ++ [n]) = true
        · rw [if_pos hdir] at hstep
          cases hts : pathToStr (root ++ [n]) with
          | none => rw [hts] at hstep; cases hstep
          | some s =>
            rw [hts] at hstep
            cases hrc : recurse (root ++ [n]) with
            | error e => rw [hrc] at hstep; cases hstep
            | ok sub =>
              rw [hrc] at hstep
              cases hstep
              intro q hq
              rcases List.mem_append.mp hq with hq | hq
              · exact hacc q hq
              · exact hrec _ sub hrc q hq
        · rw [if_neg hdir] at hstep
          by_cases hfl : (fs.isFile (root ++ [n]) && !fs.isSymlink (root ++ [n])) = true
          · rw [if_pos hfl] at hstep
            cases hstep
            intro q hq
            rcases List.mem_append.mp hq with hq | hq
            · exact hacc q hq
            · rw [List.mem_singleton.mp hq]
              rcases Bool.and_eq_true_iff.mp hfl with ⟨h1, h2⟩
              exact hfile n (by simpa using hdir) h1 (by simpa using h2)
          · rw [if_neg hfl] at hstep
            cases hstep
            exact hacc
      exact ih acc' res h hacc'

theorem discover_files_only_regular (fs : Fs) :
    ∀ (fuel : Nat) (root : FsPath) (res : List FsPath),
      discover_files fs fuel root = .ok res →
      ∀ p ∈ res, fs.isFile p = true ∧ fs.isSymlink p = false ∧
        fs.isDir p = false := by
  intro fuel
  induction fuel with
  | zero =>
    intro root res h
    exact absurd h (by simp [discover_files])
  | succ fuel ih =>
    intro root res h
    unfold discover_files at h
    by_cases hdir : fs.isDir root = true
    · rw [if_pos hdir] at h
      cases hrd : fs.readDir root with
      | error e => rw [hrd] at h; cases h
      | ok entries =>
        rw [hrd] at h
        exact foldlM_discoverStep_mem
          (fun p sub hs => ih p sub hs)
          (fun n h1 h2 h3 => ⟨h2, h3, h1⟩)
          entries [] res h (by simp)
    · rw [if_neg hdir] at h
      cases h

theorem discover_files_root_not_dir (fs : Fs) (fuel : Nat) (root : FsPath)
    (h : fs.isDir root = false) :
    ∃ e, discover_files fs fuel root = .error e := by
  cases fuel with
  | zero => exact ⟨"out of fuel", rfl⟩
  | succ fuel =>
    exact ⟨"not a directory", by simp [discover_files, h]⟩

theorem remoteNameStep_error {root f : FsPath} (rr : String)
    (hbad : root.isPrefixOf f = true → pathToStr (f.drop root.length) = none) :
    ∀ m, ∃ e, remoteNameStep root rr m f = .error e := by
  intro m
  unfold remoteNameStep stripPrefixPath
  cases hpf : root.isPrefixOf f with
  | false => exact ⟨"StripPrefixError", by simp [hpf]⟩
  | true => exact ⟨"Invalid utf8", by simp [hpf, hbad hpf]⟩

/-- C8 amended. Every scanned entry is a regular, non-symlink,
non-directory file — so directories and symlink entries never contribute an
entry of their own, though a directory reached through a directory symlink
is still traversed (see the counterexample) — and scanning fails when the
root is not a directory, as does `files_by_remote_name` when a scanned path
is not representable as text. -/
theorem discover_files_spec_amended (fs : Fs) (fuel : Nat) (root : FsPath)
    (remoteRoot : String) :
    (∀ res, discover_files fs fuel root = .ok res →
      ∀ p ∈ res, fs.isFile p = true ∧ fs.isSymlink p = false ∧
        fs.isDir p = false) ∧
    (fs.isDir root = false → ∃ e, discover_files fs fuel root = .error e) ∧
    (∀ files f, discover_files fs fuel root = .ok files → f ∈ files →
      (root.isPrefixOf f = true → pathToStr (f.drop root.length) = none) →
      ∃ e, files_by_remote_name fs fuel root remoteRoot = .error e) := by
  refine ⟨fun res h => discover_files_only_regular fs fuel root res h,
    discover_files_root_not_dir fs fuel root, ?_⟩
  intro files f hdisc hmem hbad
  obtain ⟨e, he⟩ :=
    foldlM_error_of_mem hmem (remoteNameStep_error (trimSlashes remoteRoot) hbad) []
  exact ⟨e, by simp [files_by_remote_name, hdisc, he]⟩

/-- A filesystem in which `r/s` is a symbolic link to a directory that
holds the regular file `r/s/f`. `isDir` follows the link, as Rust's
`Path::is_dir` does. -/
def symFs : Fs where
  isDir p := p == [FName.txt "r"] || p == [FName.txt "r", FName.txt "s"]
  isFile p := p == [FName.txt "r", FName.txt "s", FName.txt "f"]
  isSymlink p := p == [FName.txt "r", FName.txt "s"]
  readDir p :=
    if p == [FName.txt "r"] then .ok [FName.txt "s"]
    else if p == [FName.txt "r", FName.txt "s"] then .ok [FName.txt "f"]
    else .ok []

/-- C8 counterexample: scanning root `r` returns the file `r/s/f` although
its parent `r/s` is a symbolic link — a path reached through a symbolic
link contributes an entry, because `Path::is_dir` follows links and the
scanner recurses into symlinked directories. -/
theorem discover_follows_dir_symlink_counterexample :
    symFs.isSymlink [FName.txt "r", FName.txt "s"] = true ∧
    discover_files symFs 3 [FName.txt "r"] =
      .ok [[FName.txt "r", FName.txt "s", FName.txt "f"]] := by
  exact ⟨rfl, rfl⟩

/-- A filesystem whose root directory `r` holds one regular file with a
non-text (non-UTF-8) name. -/
def binFs : Fs where
  isDir p := p == [FName.txt "r"]
  isFile p := p == [FName.txt "r", FName.bin 0]
  isSymlink _ := false
  readDir p := if p == [FName.txt "r"] then .ok [FName.bin 0] else .ok []

/-- C8 amended witness: the symlinked file is a regular non-symlink entry,
a non-directory root fails, and a non-text file name fails the scan's map
build. -/
theorem discover_files_spec_amended_witness :
    (symFs.isFile [FName.txt "r", FName.txt "s", FName.txt "f"] = true ∧
      symFs.isSymlink [FName.txt "r", FName.txt "s", FName.txt "f"] = false ∧
      symFs.isDir [FName.txt "r", FName.txt "s", FName.txt "f"] = false) ∧
    (discover_files symFs 1 [FName.txt "x"]).isOk = false ∧
    (files_by_remote_name binFs 2 [FName.txt "r"] "").isOk = false := by
  refine ⟨?_, ?_, ?_⟩
  · exact (discover_files_spec_amended symFs 3 [FName.txt "r"] "").1
      [[FName.txt "r", FName.txt "s", FName.txt "f"]] rfl _ (by simp)
  · obtain ⟨e, he⟩ :=
      (discover_files_spec_amended symFs 1 [FName.txt "x"] "").2.1 rfl
    rw [he]
    rfl
  · obtain ⟨e, he⟩ :=
      (discover_files_spec_amended binFs 2 [FName.txt "r"] "").2.2
        [[FName.txt "r", FName.bin 0]] [FName.txt "r", FName.bin 0]
        rfl (by simp) (fun _ => rfl)
    rw [he]
    rfl

/-! ### Task execution and the sync job (`src/sync/task.rs`, `src/sync/mod.rs`) -/

/-- Embeds `Task::execute` from `src/sync/task.rs`: resolve with
`self.plan(fs::read)` (the injected reader is `fs::read` here), then —
unless `dry_run` — apply the action: `Put` issues `put_file`, `Delete`
issues `delete_file` except when the remote name equals the lockfile, and
`Ignore` issues nothing. Returns the issued effects and the
`(remote, event)` outcome. -/
def Task.execute {π : Type} (fsRead : π → Except String Bytes)
    (inferMime : π → Except String (Option String)) (digest : Bytes → Checksum)
    (putRes : String → Bytes → Option String → Except String Unit)
    (delRes : String → Except String Unit)
    (dryRun : Bool) (lockfile : String) (t : Task π) :
    List Effect × Except String (String × String) :=
  match t.plan fsRead fsRead inferMime digest with
  | .error e => ([], .error e)
  | .ok ex =>
    let event :=
      match ex.action with
      | .Put _ _ => "put"
      | .Ignore => "unchanged"
      | .Delete => "delete"
    if dryRun = false then
      match ex.action with
      | .Put content mimeType =>
        ([.putFile ex.remote content mimeType],
         match putRes ex.remote content mimeType with
         | .ok _ => .ok (ex.remote, event)
         | .error e => .error e)
      | .Delete =>
        if ex.remote ≠ lockfile then
          ([.deleteFile ex.remote],
           match delRes ex.remote with
           | .ok _ => .ok (ex.remote, event)
           | .error e => .error e)
        else ([], .ok (ex.remote, event))
      | .Ignore => ([], .ok (ex.remote, event))
    else ([], .ok (ex.remote, event))

/-- Sequentializes the worker pool of `SyncJob::execute`: every task is
executed once in submission order (one admissible schedule); all effects
are collected and the first error, if any, is the result — matching the
engine, where already-queued work still runs after a failure. -/
def runTasks {π : Type}
    (step : Task π → List Effect × Except String (String × String)) :
    List (Task π) → List Effect × Except String (List (String × String))
  | [] => ([], .ok [])
  | t :: ts =>
    let r1 := step t
    let r2 := runTasks step ts
    (r1.1 ++ r2.1,
     match r1.2 with
     | .error e => .error e
     | .ok o =>
       match r2.2 with
       | .error e => .error e
       | .ok os => .ok (o :: os))

/-- Embeds `SyncJob::execute` from `src/sync/mod.rs`: acquire the lock
unless `dry_run`, scan local files, list remote files, plan, execute every
task, and release the lock (the `Drop` of `Lock` — a best-effort
`delete_file` on every exit path after acquisition). -/
def SyncJob.execute
    (fs : Fs) (fsRead : FsPath → Except String Bytes)
    (inferMime : FsPath → Except String (Option String))
    (digest : Bytes → Checksum)
    (server : String → HttpResponse)
    (store : String → Option Bytes)
    (putRes : String → Bytes → Option String → Except String Unit)
    (delRes : String → Except String Unit)
    (zone : String) (localRoot : FsPath) (remotePath : String)
    (ignore : List String) (lockfile : String) (ts : String)
    (force dryRun : Bool) (fuelFs fuelHttp : Nat) :
    List Effect × Except String (List (String × String)) :=
  let runBody : List Effect × Except String (List (String × String)) :=
    match files_by_remote_name fs fuelFs localRoot remotePath with
    | .error e => ([], .error e)
    | .ok localMap =>
      match list_files server zone ignore fuelHttp remotePath with
      | .error e => ([], .error e)
      | .ok remoteMap =>
        runTasks
          (Task.execute fsRead inferMime digest putRes delRes dryRun lockfile)
          (planSync localMap remoteMap ignore)
  if dryRun then runBody
  else
    match Lock.new store putRes lockfile force ts with
    | (le, .error e) => (le, .error e)
    | (le, .ok _) => (le ++ runBody.1 ++ [.deleteFile lockfile], runBody.2)

/-! ### C6 — dry-run performs no remote mutation -/

theorem runTasks_effects_nil {π : Type}
    {step : Task π → List Effect × Except String (String × String)}
    (h : ∀ t : Task π, (step t).1 = []) :
    ∀ ts, (runTasks step ts).1 = [] := by
  intro ts
  induction ts with
  | nil => rfl
  | cons t ts ih => simp [runTasks, h t, ih]

theorem runTasks_ok {π : Type}
    {step : Task π → List Effect × Except String (String × String)} :
    ∀ ts : List (Task π), (∀ t ∈ ts, ∃ o, step t = ([], .ok o)) →
      ∃ outs, (runTasks step ts).2 = .ok outs ∧ outs.length = ts.length := by
  intro ts
  induction ts with
  | nil => exact fun _ => ⟨[], rfl, rfl⟩
  | cons t ts ih =>
    intro h
    obtain ⟨o, ho⟩ := h t (by simp)
    obtain ⟨outs, houts, hlen⟩ := ih fun u hu => h u (List.mem_cons_of_mem _ hu)
    refine ⟨o :: outs, ?_, by simp [hlen]⟩
    simp [runTasks, ho, houts]

theorem Task.execute_dry_effects {π : Type} (fsRead : π → Except String Bytes)
    (inferMime : π → Except String (Option String)) (digest : Bytes → Checksum)
    (putRes : String → Bytes → Option String → Except String Unit)
    (delRes : String → Except String Unit) (lockfile : String) (t : Task π) :
    (Task.execute fsRead inferMime digest putRes delRes true lockfile t).1 =
      [] := by
  unfold Task.execute
  cases t.plan fsRead fsRead inferMime digest <;> simp

/-- C6. With `dry_run` set, the whole run issues no remote mutation at all:
`Task::execute` performs no `put_file`/`delete_file` for any task,
`SyncJob::execute` neither acquires nor releases the lock and issues no
effect whatsoever, and — when scanning, listing and every resolution
succeed — it still emits exactly one outcome per planned task. -/
theorem dry_run_no_effects
    (fs : Fs) (fsRead : FsPath → Except String Bytes)
    (inferMime : FsPath → Except String (Option String))
    (digest : Bytes → Checksum) (server : String → HttpResponse)
    (store : String → Option Bytes)
    (putRes : String → Bytes → Option String → Except String Unit)
    (delRes : String → Except String Unit)
    (zone : String) (localRoot : FsPath) (remotePath : String)
    (ignore : List String) (lockfile : String) (ts : String)
    (force : Bool) (fuelFs fuelHttp : Nat) :
    (∀ t : Task FsPath,
      (Task.execute fsRead inferMime digest putRes delRes true lockfile t).1 =
        []) ∧
    (SyncJob.execute fs fsRead inferMime digest server store putRes delRes
      zone localRoot remotePath ignore lockfile ts force true
      fuelFs fuelHttp).1 = [] ∧
    (∀ localMap remoteMap,
      files_by_remote_name fs fuelFs localRoot remotePath = .ok localMap →
      list_files server zone ignore fuelHttp remotePath = .ok remoteMap →
      (∀ t ∈ planSync localMap remoteMap ignore,
        ∃ ex, t.plan fsRead fsRead inferMime digest = .ok ex) →
      ∃ outs,
        (SyncJob.execute fs fsRead inferMime digest server store putRes delRes
          zone localRoot remotePath ignore lockfile ts force true
          fuelFs fuelHttp).2 = .ok outs ∧
        outs.length = (planSync localMap remoteMap ignore).length) := by
  have heff := Task.execute_dry_effects fsRead inferMime digest putRes delRes
    lockfile
  refine ⟨heff, ?_, ?_⟩
  · unfold SyncJob.execute
    cases hscan : files_by_remote_name fs fuelFs localRoot remotePath with
    | error e => simp [hscan]
    | ok localMap =>
      cases hlist : list_files server zone ignore fuelHttp remotePath with
      | error e => simp [hscan, hlist]
      | ok remoteMap =>
        simp [hscan, hlist, runTasks_effects_nil heff]
  · intro localMap remoteMap hscan hlist hres
    have hstep : ∀ t ∈ planSync localMap remoteMap ignore,
        ∃ o, Task.execute fsRead inferMime digest putRes delRes true lockfile t
          = ([], .ok o) := by
      intro t ht
      obtain ⟨ex, hex⟩ := hres t ht
      exact ⟨(ex.remote,
        match ex.action with
        | .Put _ _ => "put"
        | .Ignore => "unchanged"
        | .Delete => "delete"), by simp [Task.execute, hex]⟩
    obtain ⟨outs, houts, hlen⟩ := runTasks_ok _ hstep
    refine ⟨outs, ?_, hlen⟩
    unfold SyncJob.execute
    simp [hscan, hlist, houts]

/-- A one-directory local tree with no files. -/
def emptyFs : Fs where
  isDir p := p == [FName.txt "r"]
  isFile _ := false
  isSymlink _ := false
  readDir _ := .ok []

/-- A server whose every listing is empty. -/
def emptyServer : String → HttpResponse := fun _ => ⟨200, "", .ok []⟩

/-- C6 witness on an empty local tree and empty remote store: the dry run
issues no effect and yields one outcome per task (here zero). -/
theorem dry_run_no_effects_witness :
    (SyncJob.execute emptyFs (fun _ => .error "no read") (fun _ => .ok none)
      (fun bs => bs) emptyServer (fun _ => some [1]) (fun _ _ _ => .ok ())
      (fun _ => .ok ()) "z" [FName.txt "r"] "" [] ".thumper.lock" "t" false
      true 2 2).1 = [] ∧
    (SyncJob.execute emptyFs (fun _ => .error "no read") (fun _ => .ok none)
      (fun bs => bs) emptyServer (fun _ => some [1]) (fun _ _ _ => .ok ())
      (fun _ => .ok ()) "z" [FName.txt "r"] "" [] ".thumper.lock" "t" false
      true 2 2).2 = .ok [] := by
  have h := dry_run_no_effects emptyFs (fun _ => .error "no read")
    (fun _ => .ok none) (fun bs => bs) emptyServer (fun _ => some [1])
    (fun _ _ _ => .ok ()) (fun _ => .ok ()) "z" [FName.txt "r"] "" []
    ".thumper.lock" "t" false 2 2
  refine ⟨h.2.1, ?_⟩
  obtain ⟨outs, ho, hlen⟩ := h.2.2 [] [] rfl rfl
    (fun t ht => by
      rw [show planSync ([] : List (String × FsPath)) [] [] = [] from rfl]
        at ht
      cases ht)
  have houts : outs = [] := List.length_eq_zero.mp hlen
  rw [houts] at ho
  exact ho

end Thumper
